import Mathlib

/-!
Verification of the terminal markdown presenter
(`scripts/present-markdown.mjs`).

JavaScript strings are modelled as `List Char` (`Str`).  Each regular
expression of the source is modelled by a dedicated function carrying the
exact JS semantics (greedy quantifiers with the single-position backtracking
the patterns admit, `\s` = the ECMAScript whitespace class, `.` excluding
line terminators, global replace restarting one position after a failed
match and immediately after a successful one).  Code whose JS counterpart
can throw (`String.prototype.repeat` with a negative count) or loop forever
(`wrapLine`'s chunk loop with `width <= 0`) is modelled in `Option`, with
`none` exactly on those inputs.
-/

set_option autoImplicit false

/-! ### Definitions -/

abbrev Str := List Char

/-- ECMAScript `\s` (also the character class stripped by
`String.prototype.trim`): tab, LF, VT, FF, CR, space, NBSP, Ogham space,
U+2000–U+200A, LS, PS, NNBSP, MMSP, ideographic space, BOM. -/
def jsWS (c : Char) : Bool :=
  c == ' ' || c == '\t' || c == '\n' || c == '\u000B' || c == '\u000C' ||
  c == '\r' || c == '\u00A0' || c == '\u1680' ||
  (decide (0x2000 ≤ c.toNat) && decide (c.toNat ≤ 0x200A)) ||
  c == '\u2028' || c == '\u2029' || c == '\u202F' || c == '\u205F' ||
  c == '\u3000' || c == '\uFEFF'

/-- ECMAScript line terminators (the characters `.` does not match). -/
def isLT (c : Char) : Bool :=
  c == '\n' || c == '\r' || c == '\u2028' || c == '\u2029'

/-- Strip a trailing whitespace run (the effect of `replace(/\s+$/, "")`,
and the trailing half of `trim()`). -/
def dropTrailingWS (s : Str) : Str :=
  (s.reverse.dropWhile jsWS).reverse

/-- `String.prototype.trim`. -/
def jsTrim (s : Str) : Str :=
  dropTrailingWS (s.dropWhile jsWS)

/-- `String.prototype.split` with a single-character separator:
`"".split(sep)` is `[""]`, separators at the ends produce empty pieces. -/
def splitE (c : Char) : Str → List Str
  | [] => [[]]
  | a :: t =>
    if a == c then [] :: splitE c t
    else
      match splitE c t with
      | [] => [[a]]
      | h :: r => (a :: h) :: r

/-- `Array.prototype.join` with a single-character separator. -/
def joinE (c : Char) : List Str → Str
  | [] => []
  | [x] => x
  | x :: xs => x ++ c :: joinE c xs

/-- Shared tail of the heading regexes: `\s+(.+)$` matched against the text
after the `#` markers (no `m` flag, so `$` is end of input).  Greedy `\s+`
backtracks just enough to leave at least one `.`-matchable character, and
`(.+)` must run to the end without crossing a line terminator. -/
def matchHeadingTail (t : Str) : Option Str :=
  let w := (t.takeWhile jsWS).length
  let r := (t.reverse.takeWhile (fun c => !isLT c)).length
  let n := t.length
  let a := min w (n - 1)
  if 1 ≤ a ∧ n - r ≤ a then some (t.drop a) else none

/-- `line.match(/^#\s+(.+)$/)` — the captured group. -/
def matchH1 : Str → Option Str
  | '#' :: t => matchHeadingTail t
  | _ => none

/-- `line.match(/^##\s+(.+)$/)` — the captured group. -/
def matchH2 : Str → Option Str
  | '#' :: '#' :: t => matchHeadingTail t
  | _ => none

/-- `line.match(/^###\s+(.+)$/)` — the captured group. -/
def matchH3 : Str → Option Str
  | '#' :: '#' :: '#' :: t => matchHeadingTail t
  | _ => none

/-- `l.match(/^##\s+/)` (the `h2Next` test inside a section): `##` followed
by at least one whitespace character. -/
def isH2Next : Str → Bool
  | '#' :: '#' :: c :: _ => jsWS c
  | _ => false

/-- `lines[i].match(/^#{1,3}\s/)` (stops collection of the title body):
only `j = (length of the #-run)` can satisfy the backtracking, so the line
matches iff its `#`-run has length 1–3 and is followed by a whitespace. -/
def isH13 (l : Str) : Bool :=
  let m := (l.takeWhile (fun c => c == '#')).length
  decide (1 ≤ m) && decide (m ≤ 3) &&
    (match l.drop m with
     | c :: _ => jsWS c
     | [] => false)

/-- `content.replace(/^###\s+[^\n]+\n?/, "")`: remove the first line of a
sub-block (the `###` heading line) together with the newline after it.
`\s+` is greedy but must leave at least one non-newline character for
`[^\n]+`; it backtracks one whitespace at a time. -/
def tryH3StripSplit : Nat → Str → Option Nat
  | 0, _ => none
  | a + 1, t =>
    match t.drop (a + 1) with
    | c :: _ => if c ≠ '\n' then some (a + 1) else tryH3StripSplit a t
    | [] => tryH3StripSplit a t

def stripH3Head (s : Str) : Str :=
  match s with
  | '#' :: '#' :: '#' :: t =>
    let w := (t.takeWhile jsWS).length
    match tryH3StripSplit w t with
    | none => s
    | some a =>
      let rest := t.drop a
      let b := (rest.takeWhile (fun c => c ≠ '\n')).length
      let c := if (rest.drop b).take 1 = ['\n'] then 1 else 0
      t.drop (a + b + c)
  | _ => s

/-! ### The document model -/

inductive PKind where
  | title
  | page
  deriving DecidableEq, Repr

/-- One navigable page (`{type, title, subtitle, content}` in the source;
the title page's absent `subtitle` field is `none`). -/
structure Page where
  type : PKind
  title : Str
  subtitle : Option Str
  content : Str
  deriving DecidableEq, Repr

/-- One entry of the `subPages` array built inside the H2 loop. -/
structure SubPage where
  subtitle : Option Str
  content : Str
  deriving DecidableEq, Repr

/-- The three `subPages.push` sites (lines 86–96, 102–112, 123–133 of the
source share this code): push only when the accumulated block is non-empty
after trimming; the subtitle comes from an `###` match on the block's first
line. -/
def pushSub (cur : List Str) : List SubPage :=
  if jsTrim (joinE '\n' cur) = [] then []
  else
    [{ subtitle := (match cur with
                    | [] => none
                    | firstLine :: _ => (matchH3 firstLine).map jsTrim),
       content := jsTrim (joinE '\n' cur) }]

/-- The inner `while` of the H2 loop: walk the lines of one section,
flushing the accumulated block at each `###` heading, stopping (without
consuming) at the next `^##\s+` line.  Returns the collected sub-pages and
the unconsumed rest of the document. -/
def sectionLoop : List Str → List SubPage → List Str → List SubPage × List Str
  | cur, subs, [] => (subs ++ pushSub cur, [])
  | cur, subs, l :: ls =>
    if isH2Next l then (subs ++ pushSub cur, l :: ls)
    else
      match matchH3 l with
      | some _ => sectionLoop [l] (subs ++ pushSub cur) ls
      | none => sectionLoop (cur ++ [l]) subs ls

/-- Lines 135–154: turn one section's sub-pages into `Page`s.  An empty
`subPages` yields the single empty placeholder page.  A truthy subtitle
(non-`null`, non-empty) causes the `###` heading line to be stripped from
the content and the result re-trimmed. -/
def pageOfSub (title : Str) (sp : SubPage) : Page :=
  { type := .page
    title := title
    subtitle := sp.subtitle
    content :=
      match sp.subtitle with
      | some s => if s = [] then sp.content else jsTrim (stripH3Head sp.content)
      | none => sp.content }

def pagesOfSection (title : Str) (subs : List SubPage) : List Page :=
  if subs = [] then [{ type := .page, title := title, subtitle := none, content := [] }]
  else subs.map (pageOfSub title)

/-- The outer H2 `while` loop.  It consumes at least one line per
iteration, so `fuel = number of lines` suffices; the `fuel = 0` case is
never reached from `parseMarkdown`. -/
def parseH2Go : Nat → List Str → List Page
  | 0, _ => []
  | _ + 1, [] => []
  | fuel + 1, l :: ls =>
    match matchH2 l with
    | some t =>
      let r := sectionLoop [] [] ls
      pagesOfSection (jsTrim t) r.1 ++ parseH2Go fuel r.2
    | none => parseH2Go fuel ls

/-- The H1 scan (lines 49–67): skip lines until the first `/^#\s+(.+)$/`
match; return the capture and the remaining lines.  `none` means the scan
consumed the entire document (the JS index `i` reaches `lines.length`, so
the following H2 loop scans nothing). -/
def findH1 : List Str → Option (Str × List Str)
  | [] => none
  | l :: ls =>
    match matchH1 l with
    | some t => some (t, ls)
    | none => findH1 ls

/-- `parseMarkdown` (lines 43–161). -/
def parseMarkdown (md : Str) : List Page :=
  let lines := splitE '\n' md
  match findH1 lines with
  | none => []
  | some (t, rest) =>
    let content := rest.takeWhile (fun l => !isH13 l)
    let rest2 := rest.dropWhile (fun l => !isH13 l)
    { type := .title, title := jsTrim t, subtitle := none,
      content := jsTrim (joinE '\n' content) } :: parseH2Go rest2.length rest2

/-- The chunk loop `for (let i = 0; i < w.length; i += width)`: fixed-size
slices.  `fuel = w.length` suffices when `1 ≤ n`, each step consuming at
least one character; the `n = 0` case never arises (`wrapLine` returns
`none` first, since the JS loop would not terminate). -/
def chunksGo : Nat → Nat → Str → List Str
  | 0, _, _ => []
  | fuel + 1, n, w => if w = [] then [] else w.take n :: chunksGo fuel n (w.drop n)

def chunks (n : Nat) (w : Str) : List Str :=
  chunksGo w.length n w

/-- `if (current) result.push(current)`. -/
def pushCur (cur : Str) : List Str :=
  if cur = [] then [] else [cur]

/-- `current += (current ? " " : "") + w`. -/
def appendWord (cur w : Str) : Str :=
  cur ++ (if cur = [] then [] else [' ']) ++ w

/-- The word loop of `wrapLine`, as a fold over the split words with state
`(result, current)`.  `none` models the JS infinite loop: a word longer
than a non-positive `width` (only a non-empty word can enter the chunk
loop, since `0 > width` requires `width < 0` for the length-0 word, and
then the loop body never runs). -/
def wrapGo (width : Int) : List Str → List Str × Str → Option (List Str × Str)
  | [], s => some s
  | w :: ws, (res, cur) =>
    if (w.length : Int) > width then
      let res' := res ++ pushCur cur
      if w = [] then wrapGo width ws (res', [])
      else if width ≤ 0 then none
      else wrapGo width ws (res' ++ chunks width.toNat w, [])
    else if (cur.length : Int) + w.length + 1 ≤ width then
      wrapGo width ws (res, appendWord cur w)
    else
      wrapGo width ws (res ++ pushCur cur, w)

/-- `wrapLine(line, width)` (lines 210–232). -/
def wrapLine (line : Str) (width : Int) : Option (List Str) :=
  (wrapGo width (splitE ' ' line) ([], [])).map fun s => s.1 ++ pushCur s.2

/-! ### The inline style formatter (`formatContent`, lines 163–184) -/

def ESCc : Char := Char.ofNat 27

def green : Str := ESCc :: "[32m".data

def red : Str := ESCc :: "[31m".data

def cyan : Str := ESCc :: "[36m".data

def orange : Str := ESCc :: "[38;5;208m".data

def reset : Str := ESCc :: "[0m".data

/-- ECMAScript `\w`. -/
def isWordChar (c : Char) : Bool :=
  c.isAlpha || c.isDigit || c == '_'

/-- Offset of the first occurrence of three consecutive backticks (the
lazy `[\s\S]*?` of the code-block regex stops at the earliest closing
fence). -/
def findTriple : Str → Option Nat
  | [] => none
  | c :: rest =>
    if c = '`' ∧ rest.take 2 = ['`', '`'] then some 0
    else (findTriple rest).map (· + 1)

/-- The replacement callback of the code-block pass (lines 165–172):
drop a single-bare-word language tag, two-space-indent every remaining
line, strip its trailing whitespace, and wrap it in the code colour. -/
def cbReplace (content : Str) : Str :=
  let lines := splitE '\n' content
  let lang : Bool :=
    match lines with
    | [] => false
    | l0 :: _ => !l0.isEmpty && l0.all isWordChar
  let codeLines := if lang then lines.drop 1 else lines
  joinE '\n' (codeLines.map fun l => orange ++ "  ".data ++ dropTrailingWS l ++ reset)

/-- `result.replace(/```[\s\S]*?```/g, block => ...)`.  On a failed match
the scan advances one position (fuel decreases by one per step, so
`fuel = s.length` is enough; fuel `0` leaves the rest unscanned, which is
never reached from `formatContent`). -/
def codeBlockGo : Nat → Str → Str
  | 0, s => s
  | _ + 1, [] => []
  | fuel + 1, c :: rest =>
    if c = '`' ∧ rest.take 2 = ['`', '`'] then
      match findTriple (rest.drop 2) with
      | some k =>
        cbReplace ((rest.drop 2).take k) ++ codeBlockGo fuel ((rest.drop 2).drop (k + 3))
      | none => c :: codeBlockGo fuel rest
    else c :: codeBlockGo fuel rest

/-- Whether the last character of a consumed match is a line terminator —
with the `m` flag, `^` matches right after any line terminator, so this is
the line-start flag for the position following the match. -/
def lastIsLT (ws : Str) : Bool :=
  match ws.getLast? with
  | some c => isLT c
  | none => false

/-- `.replace(/^#{1,6}\s+/gm, "")`.  `b` records whether the current
position is at a line start (`^` with the `m` flag); greedy `\s+` may
consume line terminators, so the flag after a match comes from the match's
last character. -/
def headingStripGo : Nat → Bool → Str → Str
  | 0, _, s => s
  | _ + 1, _, [] => []
  | fuel + 1, b, c :: rest =>
    if b ∧ c = '#' then
      let hs := rest.takeWhile (fun x => x == '#')
      let afterH := rest.drop hs.length
      let ws := afterH.takeWhile jsWS
      if hs.length + 1 ≤ 6 ∧ ws ≠ [] then
        headingStripGo fuel (lastIsLT ws) (afterH.drop ws.length)
      else c :: headingStripGo fuel false rest
    else c :: headingStripGo fuel (isLT c) rest

/-- `.replace(/dd([^d]+)dd/g, pre + "$1" + post)` for a doubled one-character
delimiter `d` (the bold passes, `d` being `*` or `_`). -/
def pairTwoGo (d : Char) (pre post : Str) : Nat → Str → Str
  | 0, s => s
  | _ + 1, [] => []
  | _ + 1, [c] => [c]
  | fuel + 1, c1 :: c2 :: rest =>
    if c1 = d ∧ c2 = d then
      let content := rest.takeWhile (fun x => x ≠ d)
      let after := rest.drop content.length
      if content ≠ [] ∧ after.take 2 = [d, d] then
        pre ++ content ++ post ++ pairTwoGo d pre post fuel (after.drop 2)
      else c1 :: pairTwoGo d pre post fuel (c2 :: rest)
    else c1 :: pairTwoGo d pre post fuel (c2 :: rest)

/-- `.replace(/d([^d]+)d/g, pre + "$1" + post)` for a single one-character
delimiter `d` (the italic passes and the inline-code pass). -/
def pairOneGo (d : Char) (pre post : Str) : Nat → Str → Str
  | 0, s => s
  | _ + 1, [] => []
  | fuel + 1, c :: rest =>
    if c = d then
      let content := rest.takeWhile (fun x => x ≠ d)
      let after := rest.drop content.length
      if content ≠ [] ∧ after.take 1 = [d] then
        pre ++ content ++ post ++ pairOneGo d pre post fuel (after.drop 1)
      else c :: pairOneGo d pre post fuel rest
    else c :: pairOneGo d pre post fuel rest

/-- `.replace(/\[([^\]]+)\]\(([^)]+)\)/g, "$1")` — actually the source has
no group around the target: `\[([^\]]+)\]\([^)]+\)`. -/
def linkGo : Nat → Str → Str
  | 0, s => s
  | _ + 1, [] => []
  | fuel + 1, c :: rest =>
    if c = '[' then
      let label := rest.takeWhile (fun x => x ≠ ']')
      let a1 := rest.drop label.length
      if label ≠ [] ∧ a1.take 2 = [']', '('] then
        let target := (a1.drop 2).takeWhile (fun x => x ≠ ')')
        let a2 := (a1.drop 2).drop target.length
        if target ≠ [] ∧ a2.take 1 = [')'] then
          label ++ linkGo fuel (a2.drop 1)
        else c :: linkGo fuel rest
      else c :: linkGo fuel rest
    else c :: linkGo fuel rest

/-- `.replace(/^[-*]\s+/gm, "  • ")`. -/
def ulGo : Nat → Bool → Str → Str
  | 0, _, s => s
  | _ + 1, _, [] => []
  | fuel + 1, b, c :: rest =>
    if b ∧ (c = '-' ∨ c = '*') then
      let ws := rest.takeWhile jsWS
      if ws ≠ [] then
        "  • ".data ++ ulGo fuel (lastIsLT ws) (rest.drop ws.length)
      else c :: ulGo fuel false rest
    else c :: ulGo fuel (isLT c) rest

/-- `.replace(/^\d+\.\s+/gm, "  ")`. -/
def olGo : Nat → Bool → Str → Str
  | 0, _, s => s
  | _ + 1, _, [] => []
  | fuel + 1, b, c :: rest =>
    if b ∧ c.isDigit then
      let ds := rest.takeWhile Char.isDigit
      let a1 := rest.drop ds.length
      let ws := (a1.drop 1).takeWhile jsWS
      if a1.take 1 = ['.'] ∧ ws ≠ [] then
        "  ".data ++ olGo fuel (lastIsLT ws) ((a1.drop 1).drop ws.length)
      else c :: olGo fuel false rest
    else c :: olGo fuel (isLT c) rest

def codeBlockPass (s : Str) : Str := codeBlockGo s.length s

def headingStripPass (s : Str) : Str := headingStripGo s.length true s

def boldStarPass (s : Str) : Str := pairTwoGo '*' red reset s.length s

def boldUnderPass (s : Str) : Str := pairTwoGo '_' red reset s.length s

def italStarPass (s : Str) : Str := pairOneGo '*' cyan reset s.length s

def italUnderPass (s : Str) : Str := pairOneGo '_' cyan reset s.length s

def inlineCodePass (s : Str) : Str := pairOneGo '`' orange reset s.length s

def linkPass (s : Str) : Str := linkGo s.length s

def ulPass (s : Str) : Str := ulGo s.length true s

def olPass (s : Str) : Str := olGo s.length true s

/-- `formatContent` (lines 163–184): the replacement pipeline in source
order. -/
def formatContent (s : Str) : Str :=
  olPass (ulPass (linkPass (inlineCodePass (italUnderPass (italStarPass
    (boldUnderPass (boldStarPass (headingStripPass (codeBlockPass s)))))))))

/-! ### The page renderer (`formatPage`, lines 234–273) -/

def MIN_COLUMNS_FOR_PADDING : Int := 100

def LEFT_PADDING_SPACES : Nat := 4

/-- `String.prototype.repeat`: throws a `RangeError` on a negative count,
modelled as `none`. -/
def jsRepeat (s : Str) : Int → Option Str
  | .ofNat n => some (repeatStr s n)
  | .negSucc _ => none
where repeatStr (s : Str) : Nat → Str
  | 0 => []
  | n + 1 => s ++ repeatStr s n

/-- `addLeftPadding` (lines 194–198). -/
def addLeftPadding (text : Str) (columns : Int) : Str :=
  if columns < MIN_COLUMNS_FOR_PADDING then text
  else
    joinE '\n' ((splitE '\n' text).map
      fun line => List.replicate LEFT_PADDING_SPACES ' ' ++ line)

/-- `padContentBelow` (lines 200–208).  `Math.floor` of the halved
difference is `Int.fdiv`; both `"\n".repeat` counts are clamped with
`Math.max(0, ...)`, which is what keeps `jsRepeat` from failing. -/
def padContentBelow (contentLines : List Str) (availableRows : Int) : Option Str := do
  let contentHeight : Int := contentLines.length
  let padding := max 0 (Int.fdiv (availableRows - contentHeight) 2)
  let top ← jsRepeat ['\n'] padding
  let bottom ← jsRepeat ['\n'] (max 0 (availableRows - padding - contentHeight))
  pure (top ++ joinE '\n' contentLines ++ bottom)

/-- `formatContent(...).split("\n").filter(Boolean).flatMap(cl => wrapLine(cl, w))`. -/
def wrapAll (width : Int) : List Str → Option (List Str)
  | [] => some []
  | l :: ls => do
    let a ← wrapLine l width
    let b ← wrapAll width ls
    pure (a ++ b)

def contentLinesOf (content : Str) (width : Int) : Option (List Str) :=
  if content = [] then some []
  else wrapAll width ((splitE '\n' (formatContent content)).filter (fun l => l ≠ []))

/-- `formatPage` (lines 234–273). -/
def formatPage (page : Page) (rows columns : Int) : Option Str :=
  let totalRows := rows - 1
  let leftPadding : Int :=
    if columns ≥ MIN_COLUMNS_FOR_PADDING then (LEFT_PADDING_SPACES : Int) else 0
  let contentWidth := columns - leftPadding
  if page.type = .title then do
    let header := green ++ page.title ++ reset ++ ['\n']
    let contentLines ← contentLinesOf page.content contentWidth
    let availableForContent := totalRows - 1
    let body ← padContentBelow contentLines availableForContent
    pure (addLeftPadding (header ++ body) columns)
  else do
    let headerLines :=
      [green ++ page.title ++ reset] ++
      (match page.subtitle with
       | some s => if s = [] then [] else [[], "  ".data ++ green ++ s ++ reset]
       | none => [])
    let header := joinE '\n' headerLines ++ ['\n']
    let contentLines ← contentLinesOf page.content contentWidth
    let availableForContent := totalRows - (headerLines.length : Int)
    let body ← padContentBelow contentLines (max 0 availableForContent)
    pure (addLeftPadding (header ++ body) columns)

/-! ### The navigation controller (`main`'s key handler, lines 303–327) -/

def quitKey (k : Str) : Bool := k == "q".data || k == "\u0003".data

def nextKey (k : Str) : Bool :=
  k == "n".data || k == " ".data || k == (ESCc :: "[C".data) || k == "j".data ||
  k == "\r".data

def prevKey (k : Str) : Bool :=
  k == "p".data || k == "b".data || k == (ESCc :: "[D".data) || k == "k".data

/-- One `data` event: the sequential `if`s of lines 307–327.  The result is
the new index, whether the process exited, and how many renders ran.
`q`/Ctrl-C exit before the navigation checks. -/
def handleData (pageCount idx : Int) (k : Str) : Int × Bool × Nat :=
  if quitKey k then (idx, true, 0)
  else
    let s1 := if nextKey k then (min (idx + 1) (pageCount - 1), 1) else (idx, 0)
    let s2 := if prevKey k then (max (s1.1 - 1) 0, s1.2 + 1) else s1
    (s2.1, false, s2.2)

/-- An event seen by the session: a key press, or a terminal `resize`
notification (whose handler only re-renders, line 303). -/
inductive NavEvent where
  | key (k : Str)
  | resize
  deriving Repr

def navStep (pageCount idx : Int) : NavEvent → Int
  | .resize => idx
  | .key k => (handleData pageCount idx k).1

/-- The key-to-identity mapping written from the spec's words: `next` on
n/space/right-arrow/j/enter, `previous` on p/b/left-arrow/k, quit on q and
the interrupt byte, everything else leaves the index alone and renders
nothing. -/
def specKeyMapping (pageCount idx : Int) (k : Str) : Int × Bool × Nat :=
  if quitKey k then (idx, true, 0)
  else if nextKey k then (min (idx + 1) (pageCount - 1), false, 1)
  else if prevKey k then (max (idx - 1) 0, false, 1)
  else (idx, false, 0)

/-- Concatenation of the space-splits of a list of lines. -/
def flatSplit : List Str → List Str
  | [] => []
  | l :: ls => splitE ' ' l ++ flatSplit ls

/-- No line of `s` starts with a character satisfying `p`; the flag says
whether the scan position is itself a line start. -/
def noLineStart (p : Char → Bool) : Bool → Str → Bool
  | _, [] => true
  | b, c :: rest => !(b && p c) && noLineStart p (isLT c) rest

/-- The span of one section, grouped by its `###` headings: each group is
a heading line paired with the body lines running to the next heading.
(`fuel = number of lines` suffices, as each group consumes its heading.) -/
def h3GroupsGo : Nat → List Str → List (Str × List Str)
  | 0, _ => []
  | _ + 1, [] => []
  | fuel + 1, l :: ls =>
    (l, ls.takeWhile (fun x => (matchH3 x).isNone)) ::
      h3GroupsGo fuel (ls.dropWhile (fun x => (matchH3 x).isNone))

def h3Groups (ls : List Str) : List (Str × List Str) :=
  h3GroupsGo ls.length ls

/-- The sub-pages the inner loop collects, written from the spec's
description: the pre-heading block (kept when non-empty after trimming),
then one sub-block per `###` heading. -/
def specSubs (cur : List Str) (body : List Str) : List SubPage :=
  pushSub (cur ++ body.takeWhile (fun l => (matchH3 l).isNone)) ++
    (h3Groups (body.dropWhile (fun l => (matchH3 l).isNone))).map fun g =>
      { subtitle := (matchH3 g.1).map jsTrim,
        content := jsTrim (joinE '\n' (g.1 :: g.2)) }

/-- One page per `###` group, written from the spec's (amended) words:
title from the enclosing section, subtitle from the heading's trimmed
text, content the group's trimmed block with the heading line stripped
(no strip when the trimmed heading text is empty, matching the truthiness
test in the source). -/
def specGroupPage (title : Str) (g : Str × List Str) : Page :=
  let sub := jsTrim ((matchH3 g.1).getD [])
  let c := jsTrim (joinE '\n' (g.1 :: g.2))
  { type := .page, title := title, subtitle := some sub,
    content := if sub = [] then c else jsTrim (stripH3Head c) }

/-- The pages of one section, written from the spec's (amended) words:
first a subtitle-less page for non-empty pre-heading text, then one page
per `###` heading. -/
def specSectionPages (title : Str) (body : List Str) : List Page :=
  let pre := body.takeWhile (fun l => (matchH3 l).isNone)
  let rest := body.dropWhile (fun l => (matchH3 l).isNone)
  (if jsTrim (joinE '\n' pre) = [] then []
   else [{ type := .page, title := title, subtitle := none,
           content := jsTrim (joinE '\n' pre) }]) ++
  (h3Groups rest).map (specGroupPage title)

/-! ### Theorems -/

example : parseMarkdown "## A\nbody".data = [] := by decide

example :
    parseMarkdown "# T\n## A\n### B\n### C\nbody".data =
      [{ type := .title, title := "T".data, subtitle := none, content := [] },
       { type := .page, title := "A".data, subtitle := some "B".data, content := [] },
       { type := .page, title := "A".data, subtitle := some "C".data,
         content := "body".data }] := by decide

example : wrapLine "aaaa".data 3 = some ["aaa".data, "a".data] := by decide

example : wrapLine "ab cd e".data 5 = some ["ab cd".data, "e".data] := by decide

example : wrapLine [] 7 = some [] := by decide

example :
    formatContent "**bold** and *italic* and `code`".data =
      red ++ "bold".data ++ reset ++ " and ".data ++ cyan ++ "italic".data ++
      reset ++ " and ".data ++ orange ++ "code".data ++ reset := by decide

example :
    formatContent "__ a _b_".data =
      '_' :: cyan ++ " a ".data ++ reset ++ "b_".data := by decide

example :
    formatContent (formatContent "__ a _b_".data) =
      cyan ++ cyan ++ " a ".data ++ reset ++ "b".data ++ reset := by decide

example : handleData 5 2 "n".data = (3, false, 1) := by decide

example : handleData 5 4 "n".data = (4, false, 1) := by decide

example : handleData 5 0 "k".data = (0, false, 1) := by decide

example : handleData 5 2 "q".data = (2, true, 0) := by decide

example : handleData 5 2 "x".data = (2, false, 0) := by decide

example : (formatPage ⟨.page, "A".data, none, "hi".data⟩ 24 80).isSome = true := by
  decide

/-! ### Key-handling lemmas -/

theorem nextKey_quitKey_false {k : Str} (h : nextKey k = true) : quitKey k = false := by
  simp only [nextKey, Bool.or_eq_true, beq_iff_eq] at h
  rcases h with (((rfl | rfl) | rfl) | rfl) | rfl <;> decide

theorem prevKey_quitKey_false {k : Str} (h : prevKey k = true) : quitKey k = false := by
  simp only [prevKey, Bool.or_eq_true, beq_iff_eq] at h
  rcases h with ((rfl | rfl) | rfl) | rfl <;> decide

theorem nextKey_prevKey_false {k : Str} (h : nextKey k = true) : prevKey k = false := by
  simp only [nextKey, Bool.or_eq_true, beq_iff_eq] at h
  rcases h with (((rfl | rfl) | rfl) | rfl) | rfl <;> decide

theorem handleData_eq_specKeyMapping (pageCount idx : Int) (k : Str) :
    handleData pageCount idx k = specKeyMapping pageCount idx k := by
  unfold handleData specKeyMapping
  by_cases hq : quitKey k = true
  · simp [hq]
  · by_cases hn : nextKey k = true
    · have hp := nextKey_prevKey_false hn
      simp [hq, hn, hp]
    · by_cases hp : prevKey k = true
      · simp [hq, hn, hp]
      · simp [hq, hn, hp]

/-- Claim C9: the key-event mapping of the `data` handler is exactly the
one the spec lists — next on each of n, space, right-arrow, j, enter;
previous on each of p, b, left-arrow, k; quit on q and the interrupt
byte; any other key changes nothing and triggers no render. -/
theorem C9_key_mapping (pageCount idx : Int) (k : Str) :
    handleData pageCount idx k = specKeyMapping pageCount idx k :=
  handleData_eq_specKeyMapping pageCount idx k

theorem navStep_key_eq (pageCount idx : Int) (k : Str) :
    navStep pageCount idx (.key k) = (specKeyMapping pageCount idx k).1 := by
  show (handleData pageCount idx k).1 = _
  rw [handleData_eq_specKeyMapping]

theorem navStep_bounds {pageCount idx : Int} (e : NavEvent)
    (h1 : 1 ≤ pageCount) (h2 : 0 ≤ idx) (h3 : idx ≤ pageCount - 1) :
    0 ≤ navStep pageCount idx e ∧ navStep pageCount idx e ≤ pageCount - 1 := by
  cases e with
  | resize => exact ⟨h2, h3⟩
  | key k =>
    rw [navStep_key_eq]
    unfold specKeyMapping
    split
    · exact ⟨h2, h3⟩
    · split
      · show 0 ≤ min (idx + 1) (pageCount - 1) ∧ _
        omega
      · split
        · show 0 ≤ max (idx - 1) 0 ∧ _
          omega
        · exact ⟨h2, h3⟩

theorem foldl_navStep_bounds {pageCount : Int} (h1 : 1 ≤ pageCount)
    (es : List NavEvent) :
    ∀ idx : Int, 0 ≤ idx → idx ≤ pageCount - 1 →
      0 ≤ es.foldl (navStep pageCount) idx ∧
        es.foldl (navStep pageCount) idx ≤ pageCount - 1 := by
  induction es with
  | nil => exact fun idx h2 h3 => ⟨h2, h3⟩
  | cons e es ih =>
    intro idx h2 h3
    have := navStep_bounds e h1 h2 h3
    exact ih _ this.1 this.2

/-- Claim C7: starting from index 0, any sequence of key and resize events
keeps the index inside `[0, pageCount-1]`; a previous-key at 0 stays at 0,
a next-key at the last page stays there, and resize never moves it. -/
theorem C7_nav_bounds (pageCount : Int) (h : 1 ≤ pageCount) :
    (∀ es : List NavEvent,
       0 ≤ es.foldl (navStep pageCount) 0 ∧
         es.foldl (navStep pageCount) 0 ≤ pageCount - 1) ∧
    (∀ k, prevKey k = true → navStep pageCount 0 (.key k) = 0) ∧
    (∀ k, nextKey k = true →
       navStep pageCount (pageCount - 1) (.key k) = pageCount - 1) ∧
    (∀ idx, navStep pageCount idx .resize = idx) := by
  refine ⟨fun es => foldl_navStep_bounds h es 0 le_rfl (by omega), ?_, ?_, fun _ => rfl⟩
  · intro k hp
    rw [navStep_key_eq]
    unfold specKeyMapping
    have hq := prevKey_quitKey_false hp
    have hn : nextKey k = false := by
      by_contra hx
      simp only [Bool.not_eq_false] at hx
      rw [nextKey_prevKey_false hx] at hp
      exact Bool.false_ne_true hp
    rw [if_neg (by simp [hq]), if_neg (by simp [hn]), if_pos hp]
    show max (0 - 1) 0 = 0
    omega
  · intro k hn
    rw [navStep_key_eq]
    unfold specKeyMapping
    rw [if_neg (by simp [nextKey_quitKey_false hn]), if_pos hn]
    show min (pageCount - 1 + 1) (pageCount - 1) = pageCount - 1
    omega

theorem C7_witness :
    (0 ≤ [NavEvent.key "n".data, NavEvent.resize,
          NavEvent.key "p".data].foldl (navStep 3) 0 ∧
       [NavEvent.key "n".data, NavEvent.resize,
        NavEvent.key "p".data].foldl (navStep 3) 0 ≤ 2) ∧
    navStep 3 0 (.key "p".data) = 0 ∧ navStep 3 2 (.key "n".data) = 2 := by
  have h := C7_nav_bounds 3 (by norm_num)
  exact ⟨h.1 _, h.2.1 _ (by decide), h.2.2.1 _ (by decide)⟩

/-- Claim C1 (code bug): on a document with no top-level heading the H1
scan consumes every line (the JS index `i` reaches `lines.length` before
the H2 loop starts), so `parseMarkdown` returns no pages at all — here the
second-level heading `## A` yields nothing, where the claim (and the
program's own "need H1 or H2 headings" failure message) expects one
`Content` page titled `A` with no subtitle. -/
theorem C1_no_h1_yields_no_pages : parseMarkdown "## A\nbody".data = [] := by decide

/-- Counterexample to claim C2 as stated: in `# T\n## A\n### B\n### C\nbody`
the third-level heading `B` has an empty body, yet the parser emits a page
for it (with empty content) — the accumulated sub-block contains the `###`
heading line itself, so its trimmed content is never empty.  The claim
predicts only two pages (title page and the `C` page). -/
theorem C2_counterexample :
    parseMarkdown "# T\n## A\n### B\n### C\nbody".data =
      [{ type := .title, title := "T".data, subtitle := none, content := [] },
       { type := .page, title := "A".data, subtitle := some "B".data, content := [] },
       { type := .page, title := "A".data, subtitle := some "C".data,
         content := "body".data }] ∧
    parseMarkdown "# T\n## A\n### B\n### C\nbody".data ≠
      [{ type := .title, title := "T".data, subtitle := none, content := [] },
       { type := .page, title := "A".data, subtitle := some "C".data,
         content := "body".data }] := by
  constructor <;> decide

/-- Counterexample to the final part of claim C3 ("every second-level
heading in the document is represented by at least one page"): in
`## A\n# T` the H1 scan skips the line `## A` while searching for the
first top-level heading, so the second-level heading `A` is represented by
no page at all. -/
theorem C3_counterexample :
    parseMarkdown "## A\n# T".data =
      [{ type := .title, title := "T".data, subtitle := none, content := [] }] ∧
    ((parseMarkdown "## A\n# T".data).all fun p => p.title != "A".data) = true := by
  constructor <;> decide

/-! ### Wrapper lemmas -/

theorem chunksGo_nil (fuel n : Nat) : chunksGo fuel n [] = [] := by
  cases fuel <;> simp [chunksGo]

theorem chunksGo_mem_length {fuel n : Nat} {w l : Str}
    (h : l ∈ chunksGo fuel n w) : l.length ≤ n := by
  induction fuel generalizing w with
  | zero => simp [chunksGo] at h
  | succ fuel ih =>
    by_cases hw : w = []
    · simp [chunksGo, hw] at h
    · simp only [chunksGo, if_neg hw, List.mem_cons] at h
      rcases h with rfl | h
      · rw [List.length_take]; omega
      · exact ih h

theorem chunksGo_mem_ne_nil {fuel n : Nat} {w l : Str} (hn : 1 ≤ n)
    (h : l ∈ chunksGo fuel n w) : l ≠ [] := by
  induction fuel generalizing w with
  | zero => simp [chunksGo] at h
  | succ fuel ih =>
    by_cases hw : w = []
    · simp [chunksGo, hw] at h
    · simp only [chunksGo, if_neg hw, List.mem_cons] at h
      rcases h with rfl | h
      · rw [ne_eq, List.take_eq_nil_iff]
        push_neg
        exact ⟨by omega, hw⟩
      · exact ih h

theorem chunksGo_count {n : Nat} (hn : 1 ≤ n) :
    ∀ fuel (w : Str), w ≠ [] → w.length ≤ fuel →
      (chunksGo fuel n w).length = (w.length + n - 1) / n := by
  intro fuel
  induction fuel with
  | zero =>
    intro w hw hl
    have : w.length = 0 := by omega
    exact absurd (List.length_eq_zero.mp this) hw
  | succ fuel ih =>
    intro w hw hl
    have hwp : 1 ≤ w.length := by
      have := List.length_eq_zero.not.mpr hw
      omega
    simp only [chunksGo, if_neg hw, List.length_cons]
    by_cases hle : w.length ≤ n
    · rw [List.drop_eq_nil_iff.mpr hle, chunksGo_nil]
      have : (w.length + n - 1) / n = 1 :=
        Nat.div_eq_of_lt_le (by omega) (by omega)
      simp [this]
    · have hd : w.drop n ≠ [] := by
        rw [ne_eq, List.drop_eq_nil_iff]; omega
      have hdl : (w.drop n).length ≤ fuel := by
        rw [List.length_drop]; omega
      rw [ih _ hd hdl, List.length_drop]
      have e1 : w.length - n + n - 1 = w.length - 1 := by omega
      have e2 : w.length + n - 1 = w.length - 1 + n := by omega
      rw [e1, e2, Nat.add_div_right _ (by omega)]

theorem chunksGo_dropLast {n : Nat} (hn : 1 ≤ n) :
    ∀ fuel (w : Str), w.length ≤ fuel →
      ∀ l ∈ (chunksGo fuel n w).dropLast, l.length = n := by
  intro fuel
  induction fuel with
  | zero => intro w _ l hl; simp [chunksGo] at hl
  | succ fuel ih =>
    intro w hwl l hl
    by_cases hw : w = []
    · simp [chunksGo, hw] at hl
    · simp only [chunksGo, if_neg hw] at hl
      by_cases hr : chunksGo fuel n (w.drop n) = []
      · rw [hr] at hl
        simp at hl
      · rw [List.dropLast_cons_of_ne_nil hr, List.mem_cons] at hl
        have hdrop : w.drop n ≠ [] := by
          intro hx
          exact hr (by rw [hx, chunksGo_nil])
        have hlen : n < w.length := by
          have := List.drop_eq_nil_iff.not.mp hdrop
          omega
        rcases hl with rfl | hl
        · rw [List.length_take]; omega
        · exact ih _ (by rw [List.length_drop]; omega) l hl

theorem chunksGo_ne_nil {fuel n : Nat} {w : Str} (hw : w ≠ [])
    (hl : w.length ≤ fuel) : chunksGo fuel n w ≠ [] := by
  cases fuel with
  | zero =>
    have : w.length = 0 := by omega
    exact absurd (List.length_eq_zero.mp this) hw
  | succ fuel => simp [chunksGo, hw]

/-! ### splitE / joinE lemmas -/

theorem splitE_ne_nil (c : Char) (s : Str) : splitE c s ≠ [] := by
  induction s with
  | nil => simp [splitE]
  | cons a t ih =>
    by_cases h : a == c
    · simp [splitE, h]
    · simp only [splitE, h, Bool.false_eq_true, if_false]
      cases hsp : splitE c t with
      | nil => simp
      | cons hd tl => simp

theorem splitE_cons_ne {c a : Char} (t : Str) (h : ¬a = c) {hd : Str} {tl : List Str}
    (he : splitE c t = hd :: tl) : splitE c (a :: t) = (a :: hd) :: tl := by
  have hb : (a == c) = false := beq_eq_false_iff_ne.mpr h
  simp only [splitE, hb, Bool.false_eq_true, if_false, he]

theorem splitE_append_sep (c : Char) (x y : Str) :
    splitE c (x ++ c :: y) = splitE c x ++ splitE c y := by
  induction x with
  | nil => simp [splitE]
  | cons a t ih =>
    by_cases h : a = c
    · subst h
      have hb : (a == a) = true := beq_self_eq_true a
      simp only [List.cons_append, splitE, hb, if_true]
      exact congrArg _ ih
    · cases hsp : splitE c t with
      | nil => exact absurd hsp (splitE_ne_nil c t)
      | cons hd tl =>
        rw [List.cons_append, splitE_cons_ne _ h (by rw [ih, hsp]; rfl),
            splitE_cons_ne t h hsp]
        simp

theorem splitE_no_sep {c : Char} {s : Str} (h : c ∉ s) : splitE c s = [s] := by
  induction s with
  | nil => rfl
  | cons a t ih =>
    have ha : ¬a = c := fun he => h (he ▸ List.mem_cons_self a t)
    have ht : c ∉ t := fun hm => h (List.mem_cons_of_mem a hm)
    exact splitE_cons_ne t ha (ih ht)

theorem mem_splitE_not_sep {c : Char} {s : Str} :
    ∀ p ∈ splitE c s, c ∉ p := by
  induction s with
  | nil =>
    intro p hp
    simp only [splitE, List.mem_singleton] at hp
    simp [hp]
  | cons a t ih =>
    intro p hp
    by_cases h : a = c
    · subst h
      have hb : (a == a) = true := beq_self_eq_true a
      simp only [splitE, hb, if_true, List.mem_cons] at hp
      rcases hp with rfl | hp
      · simp
      · exact ih p hp
    · cases hsp : splitE c t with
      | nil => exact absurd hsp (splitE_ne_nil c t)
      | cons hd tl =>
        rw [splitE_cons_ne t h hsp, List.mem_cons] at hp
        rcases hp with rfl | hp
        · intro hm
          rcases List.mem_cons.mp hm with rfl | hm
          · exact h rfl
          · exact ih hd (hsp ▸ List.mem_cons_self hd tl) hm
        · exact ih p (hsp ▸ List.mem_cons_of_mem hd hp)

theorem flatSplit_append (xs ys : List Str) :
    flatSplit (xs ++ ys) = flatSplit xs ++ flatSplit ys := by
  induction xs with
  | nil => rfl
  | cons x xs ih => simp [flatSplit, ih]

/-- Splitting the space-join of a list of lines yields the concatenation of
the splits of the lines, up to empty pieces: after discarding empties the
two agree. -/
theorem splitE_joinE_filter (out : List Str) :
    (splitE ' ' (joinE ' ' out)).filter (fun w => w ≠ []) =
      (flatSplit out).filter (fun w => w ≠ []) := by
  induction out with
  | nil => rfl
  | cons x xs ih =>
    cases xs with
    | nil => simp [joinE, flatSplit]
    | cons y r =>
      show (splitE ' ' (x ++ ' ' :: joinE ' ' (y :: r))).filter _ = _
      rw [splitE_append_sep, List.filter_append, ih]
      show _ = (splitE ' ' x ++ flatSplit (y :: r)).filter _
      rw [List.filter_append]

theorem mem_pushCur {l cur : Str} (h : l ∈ pushCur cur) : l = cur ∧ cur ≠ [] := by
  unfold pushCur at h
  split_ifs at h with hc
  · simp at h
  · simp only [List.mem_singleton] at h
    exact ⟨h, hc⟩

theorem length_appendWord (cur w : Str) :
    (appendWord cur w).length = cur.length + (if cur = [] then 0 else 1) + w.length := by
  unfold appendWord
  split_ifs with hc
  · simp
  · simp only [List.length_append, List.length_singleton]

theorem wrapGo_append (width : Int) (ws1 ws2 : List Str) :
    ∀ s, wrapGo width (ws1 ++ ws2) s = (wrapGo width ws1 s).bind (wrapGo width ws2) := by
  induction ws1 with
  | nil => intro s; simp [wrapGo]
  | cons w ws1 ih =>
    intro s
    obtain ⟨res, cur⟩ := s
    simp only [List.cons_append, wrapGo]
    split_ifs <;> simp [ih]

theorem wrapGo_isSome {width : Int} (h : 0 < width) :
    ∀ (ws : List Str) (s : List Str × Str), (wrapGo width ws s).isSome = true := by
  intro ws
  induction ws with
  | nil => intro s; simp [wrapGo]
  | cons w ws ih =>
    intro s
    obtain ⟨res, cur⟩ := s
    simp only [wrapGo]
    split_ifs with h1 h2 h3 h4
    · exact ih _
    · exact absurd h3 (by omega)
    · exact ih _
    · exact ih _
    · exact ih _

theorem wrapGo_len_inv {width : Int} (h : 0 < width) :
    ∀ (ws res : List Str) (cur : Str) (res' : List Str) (cur' : Str),
      (∀ l ∈ res, (l.length : Int) ≤ width) → (cur.length : Int) ≤ width →
      wrapGo width ws (res, cur) = some (res', cur') →
      (∀ l ∈ res', (l.length : Int) ≤ width) ∧ (cur'.length : Int) ≤ width := by
  intro ws
  induction ws with
  | nil =>
    intro res cur res' cur' hres hcur he
    simp only [wrapGo, Option.some.injEq, Prod.mk.injEq] at he
    obtain ⟨rfl, rfl⟩ := he
    exact ⟨hres, hcur⟩
  | cons w ws ih =>
    intro res cur res' cur' hres hcur he
    simp only [wrapGo] at he
    by_cases h1 : (w.length : Int) > width
    · by_cases h2 : w = []
      · rw [if_pos h1, if_pos h2] at he
        refine ih _ _ _ _ ?_ ?_ he
        · intro l hl
          rcases List.mem_append.mp hl with hl | hl
          · exact hres l hl
          · rw [(mem_pushCur hl).1]; exact hcur
        · simp only [List.length_nil, Nat.cast_zero]; omega
      · rw [if_pos h1, if_neg h2, if_neg (show ¬width ≤ 0 by omega)] at he
        refine ih _ _ _ _ ?_ ?_ he
        · intro l hl
          rcases List.mem_append.mp hl with hl | hl
          · rcases List.mem_append.mp hl with hl | hl
            · exact hres l hl
            · rw [(mem_pushCur hl).1]; exact hcur
          · have := chunksGo_mem_length (show l ∈ chunksGo w.length width.toNat w from hl)
            omega
        · simp only [List.length_nil, Nat.cast_zero]; omega
    · by_cases h4 : (cur.length : Int) + w.length + 1 ≤ width
      · rw [if_neg h1, if_pos h4] at he
        refine ih _ _ _ _ hres ?_ he
        rw [length_appendWord]
        by_cases hc : cur = []
        · rw [if_pos hc]
          push_cast
          omega
        · rw [if_neg hc]
          push_cast
          omega
      · rw [if_neg h1, if_neg h4] at he
        refine ih _ _ _ _ ?_ ?_ he
        · intro l hl
          rcases List.mem_append.mp hl with hl | hl
          · exact hres l hl
          · rw [(mem_pushCur hl).1]; exact hcur
        · omega

theorem wrapGo_ne_inv {width : Int} (h : 0 < width) :
    ∀ (ws res : List Str) (cur : Str) (res' : List Str) (cur' : Str),
      (∀ l ∈ res, l ≠ []) →
      wrapGo width ws (res, cur) = some (res', cur') →
      ∀ l ∈ res', l ≠ [] := by
  intro ws
  induction ws with
  | nil =>
    intro res cur res' cur' hres he
    simp only [wrapGo, Option.some.injEq, Prod.mk.injEq] at he
    obtain ⟨rfl, rfl⟩ := he
    exact hres
  | cons w ws ih =>
    intro res cur res' cur' hres he
    simp only [wrapGo] at he
    by_cases h1 : (w.length : Int) > width
    · by_cases h2 : w = []
      · rw [if_pos h1, if_pos h2] at he
        refine ih _ _ _ _ ?_ he
        intro l hl
        rcases List.mem_append.mp hl with hl | hl
        · exact hres l hl
        · rw [(mem_pushCur hl).1]; exact (mem_pushCur hl).2
      · rw [if_pos h1, if_neg h2, if_neg (show ¬width ≤ 0 by omega)] at he
        refine ih _ _ _ _ ?_ he
        intro l hl
        rcases List.mem_append.mp hl with hl | hl
        · rcases List.mem_append.mp hl with hl | hl
          · exact hres l hl
          · rw [(mem_pushCur hl).1]; exact (mem_pushCur hl).2
        · exact chunksGo_mem_ne_nil (by omega) hl
    · by_cases h4 : (cur.length : Int) + w.length + 1 ≤ width
      · rw [if_neg h1, if_pos h4] at he
        exact ih _ _ _ _ hres he
      · rw [if_neg h1, if_neg h4] at he
        refine ih _ _ _ _ ?_ he
        intro l hl
        rcases List.mem_append.mp hl with hl | hl
        · exact hres l hl
        · rw [(mem_pushCur hl).1]; exact (mem_pushCur hl).2

theorem wrapLine_isSome {width : Int} (h : 0 < width) (line : Str) :
    (wrapLine line width).isSome = true := by
  have hg := wrapGo_isSome h (splitE ' ' line) ([], [])
  unfold wrapLine
  cases ho : wrapGo width (splitE ' ' line) ([], []) with
  | none => rw [ho] at hg; simp at hg
  | some s => simp

theorem wrapLine_nil {width : Int} (h : 0 < width) : wrapLine [] width = some [] := by
  unfold wrapLine
  show (wrapGo width [[]] ([], [])).map _ = _
  simp only [wrapGo]
  rw [if_neg (by simp only [List.length_nil, Nat.cast_zero]; omega),
      if_pos (by simp only [List.length_nil, Nat.cast_zero]; omega)]
  simp [wrapGo, pushCur, appendWord]

theorem wrapLine_overlong {width : Int} {w : Str} (h : 0 < width) (hs : ' ' ∉ w)
    (hl : (w.length : Int) > width) :
    wrapLine w width = some (chunks width.toNat w) := by
  unfold wrapLine
  rw [splitE_no_sep hs]
  have hw : w ≠ [] := by
    intro hx
    subst hx
    simp only [List.length_nil, Nat.cast_zero] at hl
    omega
  simp only [wrapGo]
  rw [if_pos hl, if_neg hw, if_neg (show ¬width ≤ 0 by omega)]
  simp [wrapGo, pushCur, chunks]

theorem wrapLine_flush {width : Int} {line w : Str} (h : 0 < width) (hs : ' ' ∉ w)
    (hl : (w.length : Int) > width) :
    wrapLine (line ++ ' ' :: w) width =
      some ((wrapLine line width).getD [] ++ chunks width.toNat w) := by
  have hw : w ≠ [] := by
    intro hx
    subst hx
    simp only [List.length_nil, Nat.cast_zero] at hl
    omega
  unfold wrapLine
  rw [splitE_append_sep, splitE_no_sep hs, wrapGo_append]
  cases ho : wrapGo width (splitE ' ' line) ([], []) with
  | none =>
    have hg := wrapGo_isSome h (splitE ' ' line) ([], [])
    rw [ho] at hg
    simp at hg
  | some s =>
    obtain ⟨res1, cur1⟩ := s
    simp only [Option.some_bind, Option.map_some', Option.getD_some, wrapGo]
    rw [if_pos hl, if_neg hw, if_neg (show ¬width ≤ 0 by omega)]
    simp [wrapGo, pushCur, chunks, List.append_assoc]

/-- Claim C4: with positive width, wrapping always succeeds and every
produced line fits the width; the empty line wraps to the empty sequence;
a space-free token `w` longer than the width is hard-split into
`ceil(len/width)` chunks, all of exactly `width` characters except possibly
the last; and an accumulated line is flushed before the chunks (wrapping
`line ++ " " ++ w` is wrapping `line` followed by the chunks of `w`). -/
theorem C4_wrap_width (line w : Str) (width : Int) (hpos : 0 < width)
    (hs : ' ' ∉ w) (hlong : (w.length : Int) > width) :
    (wrapLine line width).isSome = true ∧
    (∀ l ∈ (wrapLine line width).getD [], (l.length : Int) ≤ width) ∧
    wrapLine [] width = some [] ∧
    ((wrapLine w width).getD []).length = (w.length + width.toNat - 1) / width.toNat ∧
    (∀ l ∈ ((wrapLine w width).getD []).dropLast, l.length = width.toNat) ∧
    wrapLine (line ++ ' ' :: w) width =
      some ((wrapLine line width).getD [] ++ (wrapLine w width).getD []) := by
  have hw : w ≠ [] := by
    intro hx
    subst hx
    simp only [List.length_nil, Nat.cast_zero] at hlong
    omega
  refine ⟨wrapLine_isSome hpos line, ?_, wrapLine_nil hpos, ?_, ?_, ?_⟩
  · intro l hl
    unfold wrapLine at hl
    cases ho : wrapGo width (splitE ' ' line) ([], []) with
    | none =>
      have hg := wrapGo_isSome hpos (splitE ' ' line) ([], [])
      rw [ho] at hg
      simp at hg
    | some s =>
      obtain ⟨res1, cur1⟩ := s
      rw [ho] at hl
      simp only [Option.map_some', Option.getD_some] at hl
      have hinv := wrapGo_len_inv hpos (splitE ' ' line) [] [] res1 cur1
        (by intro x hx; simp at hx)
        (by simp only [List.length_nil, Nat.cast_zero]; omega) ho
      rcases List.mem_append.mp hl with hl | hl
      · exact hinv.1 l hl
      · rw [(mem_pushCur hl).1]; exact hinv.2
  · rw [wrapLine_overlong hpos hs hlong]
    simp only [Option.getD_some]
    unfold chunks
    exact chunksGo_count (by omega) w.length w hw le_rfl
  · rw [wrapLine_overlong hpos hs hlong]
    simp only [Option.getD_some]
    unfold chunks
    exact chunksGo_dropLast (by omega) w.length w le_rfl
  · rw [wrapLine_flush hpos hs hlong, wrapLine_overlong hpos hs hlong]
    rfl

theorem C4_witness :
    wrapLine ("ab cd".data ++ ' ' :: "aaaa".data) 3 =
      some ((wrapLine "ab cd".data 3).getD [] ++ (wrapLine "aaaa".data 3).getD []) ∧
    ((wrapLine "aaaa".data 3).getD []).length =
      ("aaaa".data.length + (3 : Int).toNat - 1) / (3 : Int).toNat := by
  have h := C4_wrap_width "ab cd".data "aaaa".data 3 (by norm_num) (by decide) (by decide)
  exact ⟨h.2.2.2.2.2, h.2.2.2.1⟩

/-- Claim C10: with width at least 1, the wrapper never emits an empty
output line — accumulated lines are pushed only when non-empty, and every
hard-split chunk of a non-empty token is non-empty. -/
theorem C10_wrap_nonempty (line : Str) (width : Int) (h : 0 < width) :
    ∀ l ∈ (wrapLine line width).getD [], l ≠ [] := by
  intro l hl
  unfold wrapLine at hl
  cases ho : wrapGo width (splitE ' ' line) ([], []) with
  | none =>
    have hg := wrapGo_isSome h (splitE ' ' line) ([], [])
    rw [ho] at hg
    simp at hg
  | some s =>
    obtain ⟨res1, cur1⟩ := s
    rw [ho] at hl
    simp only [Option.map_some', Option.getD_some] at hl
    have hinv := wrapGo_ne_inv h (splitE ' ' line) [] [] res1 cur1
      (by intro x hx; simp at hx) ho
    rcases List.mem_append.mp hl with hl | hl
    · exact hinv l hl
    · rw [(mem_pushCur hl).1]; exact (mem_pushCur hl).2

theorem C10_witness : [] ∉ (wrapLine "a  b".data 1).getD [] :=
  fun hm => C10_wrap_nonempty "a  b".data 1 (by norm_num) [] hm rfl

theorem filter_cons_append {α : Type} (p : α → Bool) (a : α) (l : List α) :
    (a :: l).filter p = [a].filter p ++ l.filter p := by
  by_cases hp : p a <;> simp [hp]

theorem wrapGo_toks {width : Int} (_h : 0 < width) :
    ∀ (ws res : List Str) (cur : Str) (res' : List Str) (cur' : Str),
      (∀ t ∈ ws, ' ' ∉ t ∧ (t.length : Int) ≤ width) →
      wrapGo width ws (res, cur) = some (res', cur') →
      (flatSplit res' ++ splitE ' ' cur').filter (fun t => t ≠ []) =
        (flatSplit res ++ splitE ' ' cur).filter (fun t => t ≠ []) ++
          ws.filter (fun t => t ≠ []) := by
  intro ws
  induction ws with
  | nil =>
    intro res cur res' cur' _ he
    simp only [wrapGo, Option.some.injEq, Prod.mk.injEq] at he
    obtain ⟨rfl, rfl⟩ := he
    simp
  | cons w ws ih =>
    intro res cur res' cur' hws he
    obtain ⟨hw1, hw2⟩ := hws w (List.mem_cons_self w ws)
    have hws' := fun t ht => hws t (List.mem_cons_of_mem w ht)
    simp only [wrapGo] at he
    by_cases h1 : (w.length : Int) > width
    · exact absurd hw2 (by omega)
    · by_cases h4 : (cur.length : Int) + w.length + 1 ≤ width
      · rw [if_neg h1, if_pos h4] at he
        rw [ih res (appendWord cur w) res' cur' hws' he]
        rw [filter_cons_append (fun t => t ≠ []) w ws, ← List.append_assoc]
        congr 1
        by_cases hc : cur = []
        · subst hc
          rw [show appendWord [] w = w from by simp [appendWord],
              splitE_no_sep hw1]
          simp [List.filter_append, splitE]
        · rw [show appendWord cur w = cur ++ ' ' :: w from by simp [appendWord, hc],
              splitE_append_sep, splitE_no_sep hw1]
          simp [List.filter_append, List.append_assoc]
      · rw [if_neg h1, if_neg h4] at he
        rw [ih (res ++ pushCur cur) w res' cur' hws' he]
        rw [filter_cons_append (fun t => t ≠ []) w ws, ← List.append_assoc]
        congr 1
        rw [flatSplit_append, splitE_no_sep hw1]
        by_cases hc : cur = []
        · subst hc
          simp [pushCur, flatSplit, List.filter_append, splitE]
        · rw [show pushCur cur = [cur] from by simp [pushCur, hc]]
          simp [flatSplit, List.filter_append, List.append_assoc]

/-- Claim C5, amended: when every space-separated token of the line fits
the width, joining the wrapped lines with single spaces and collapsing
empty tokens reconstructs the original line's tokens in order.  (Without
the token-length restriction the property fails: a hard-split token
reappears as several tokens — see the counterexample.) -/
theorem C5_wrap_tokens (line : Str) (width : Int) (h : 0 < width)
    (hw : ∀ t ∈ splitE ' ' line, (t.length : Int) ≤ width) :
    (splitE ' ' (joinE ' ' ((wrapLine line width).getD []))).filter (fun t => t ≠ []) =
      (splitE ' ' line).filter (fun t => t ≠ []) := by
  rw [splitE_joinE_filter]
  unfold wrapLine
  cases ho : wrapGo width (splitE ' ' line) ([], []) with
  | none =>
    have hg := wrapGo_isSome h (splitE ' ' line) ([], [])
    rw [ho] at hg
    simp at hg
  | some s =>
    obtain ⟨res1, cur1⟩ := s
    simp only [Option.map_some', Option.getD_some]
    have htok := wrapGo_toks h (splitE ' ' line) [] [] res1 cur1
      (fun t ht => ⟨mem_splitE_not_sep t ht, hw t ht⟩) ho
    rw [show flatSplit [] ++ splitE ' ' [] = [([] : Str)] from rfl] at htok
    rw [show (([([] : Str)]).filter (fun t => t ≠ [])) = [] from rfl,
        List.nil_append] at htok
    rw [flatSplit_append]
    by_cases hc : cur1 = []
    · subst hc
      rw [show pushCur [] = [] from rfl]
      rw [show flatSplit [] = [] from rfl, List.append_nil]
      rw [show splitE ' ' [] = [([] : Str)] from rfl] at htok
      rw [List.filter_append] at htok
      rw [show (([([] : Str)]).filter (fun t => t ≠ [])) = [] from rfl,
          List.append_nil] at htok
      exact htok
    · rw [show pushCur cur1 = [cur1] from by simp [pushCur, hc]]
      rw [show flatSplit [cur1] = splitE ' ' cur1 ++ [] from rfl, List.append_nil]
      exact htok

theorem C5_witness :
    (splitE ' ' (joinE ' ' ((wrapLine "ab cd e".data 5).getD []))).filter
        (fun t => t ≠ []) =
      (splitE ' ' "ab cd e".data).filter (fun t => t ≠ []) :=
  C5_wrap_tokens "ab cd e".data 5 (by norm_num) (by decide)

/-- Counterexample to claim C5 as stated: the token `aaaa` at width 3 is
hard-split into `aaa` / `a`, so rejoining with single spaces yields the
token sequence `[aaa, a]`, not the original `[aaaa]`. -/
theorem C5_counterexample :
    (splitE ' ' (joinE ' ' ((wrapLine "aaaa".data 3).getD []))).filter
        (fun t => t ≠ []) ≠
      (splitE ' ' "aaaa".data).filter (fun t => t ≠ []) ∧
    (splitE ' ' (joinE ' ' ((wrapLine "aaaa".data 3).getD []))).filter
        (fun t => t ≠ []) = ["aaa".data, "a".data] ∧
    (splitE ' ' "aaaa".data).filter (fun t => t ≠ []) = ["aaaa".data] := by
  refine ⟨by decide, by decide, by decide⟩

/-! ### Renderer totality -/

theorem jsRepeat_isSome {s : Str} {n : Int} (h : 0 ≤ n) : (jsRepeat s n).isSome = true := by
  cases n with
  | ofNat m => simp [jsRepeat]
  | negSucc m => exact absurd h (by simp [Int.negSucc_not_nonneg])

theorem bind_isSome {α β : Type} {o : Option α} {f : α → Option β}
    (h1 : o.isSome = true) (h2 : ∀ a, (f a).isSome = true) :
    (o >>= f).isSome = true := by
  rcases o with _ | a
  · simp at h1
  · simpa using h2 a

theorem padContentBelow_isSome (contentLines : List Str) (availableRows : Int) :
    (padContentBelow contentLines availableRows).isSome = true := by
  unfold padContentBelow
  exact bind_isSome (jsRepeat_isSome (le_max_left 0 _))
    fun top => bind_isSome (jsRepeat_isSome (le_max_left 0 _)) fun bottom => rfl

theorem wrapAll_isSome {width : Int} (h : 0 < width) (ls : List Str) :
    (wrapAll width ls).isSome = true := by
  induction ls with
  | nil => simp [wrapAll]
  | cons l ls ih =>
    unfold wrapAll
    exact bind_isSome (wrapLine_isSome h l) fun a => bind_isSome ih fun b => rfl

theorem contentLinesOf_isSome {width : Int} (h : 0 < width) (content : Str) :
    (contentLinesOf content width).isSome = true := by
  unfold contentLinesOf
  split_ifs
  · rfl
  · exact wrapAll_isSome h _

/-- Claim C6: for any page and any terminal size of at least 1×1 the
renderer produces an output string (no `repeat` throw, no non-terminating
wrap: the usable content width stays positive and both vertical paddings
are clamped at zero); and `padContentBelow` itself succeeds for every —
even negative — available-row count. -/
theorem C6_render_total (page : Page) (rows columns : Int) (lines : List Str)
    (avail : Int) (_hr : 1 ≤ rows) (hc : 1 ≤ columns) :
    (formatPage page rows columns).isSome = true ∧
    (padContentBelow lines avail).isSome = true := by
  refine ⟨?_, padContentBelow_isSome lines avail⟩
  unfold formatPage
  split_ifs with h1 h2 h3
  all_goals dsimp only
  all_goals
    refine bind_isSome (contentLinesOf_isSome ?_ _)
      fun cls => bind_isSome (padContentBelow_isSome _ _) fun body => rfl
  all_goals try unfold MIN_COLUMNS_FOR_PADDING LEFT_PADDING_SPACES at *
  all_goals omega

theorem C6_witness :
    (formatPage ⟨.page, "A".data, none, "hi".data⟩ 24 80).isSome = true ∧
    (padContentBelow ["x".data] (-3)).isSome = true :=
  C6_render_total ⟨.page, "A".data, none, "hi".data⟩ 24 80 ["x".data] (-3)
    (by norm_num) (by norm_num)

theorem codeBlockGo_id :
    ∀ (fuel : Nat) (s : Str), s.all (fun c => c ≠ '`') = true →
      codeBlockGo fuel s = s := by
  intro fuel
  induction fuel with
  | zero => intro s _; rfl
  | succ fuel ih =>
    intro s hall
    cases s with
    | nil => rfl
    | cons c rest =>
      rw [List.all_cons, Bool.and_eq_true] at hall
      obtain ⟨hc, hrest⟩ := hall
      rw [decide_eq_true_eq] at hc
      show codeBlockGo (fuel + 1) (c :: rest) = c :: rest
      unfold codeBlockGo
      rw [if_neg (fun hand => hc hand.1)]
      rw [ih rest hrest]

theorem pairTwoGo_id (d : Char) (pre post : Str) :
    ∀ (fuel : Nat) (s : Str), s.all (fun c => c ≠ d) = true →
      pairTwoGo d pre post fuel s = s := by
  intro fuel
  induction fuel with
  | zero => intro s _; rfl
  | succ fuel ih =>
    intro s hall
    match s with
    | [] => rfl
    | [c] => rfl
    | c1 :: c2 :: rest =>
      rw [List.all_cons, Bool.and_eq_true] at hall
      obtain ⟨hc, hrest⟩ := hall
      rw [decide_eq_true_eq] at hc
      show pairTwoGo d pre post (fuel + 1) (c1 :: c2 :: rest) = _
      unfold pairTwoGo
      rw [if_neg (fun hand => hc hand.1)]
      rw [ih _ hrest]

theorem pairOneGo_id (d : Char) (pre post : Str) :
    ∀ (fuel : Nat) (s : Str), s.all (fun c => c ≠ d) = true →
      pairOneGo d pre post fuel s = s := by
  intro fuel
  induction fuel with
  | zero => intro s _; rfl
  | succ fuel ih =>
    intro s hall
    cases s with
    | nil => rfl
    | cons c rest =>
      rw [List.all_cons, Bool.and_eq_true] at hall
      obtain ⟨hc, hrest⟩ := hall
      rw [decide_eq_true_eq] at hc
      show pairOneGo d pre post (fuel + 1) (c :: rest) = _
      unfold pairOneGo
      rw [if_neg hc]
      rw [ih _ hrest]

theorem linkGo_id :
    ∀ (fuel : Nat) (s : Str), s.all (fun c => c ≠ ']') = true →
      linkGo fuel s = s := by
  intro fuel
  induction fuel with
  | zero => intro s _; rfl
  | succ fuel ih =>
    intro s hall
    cases s with
    | nil => rfl
    | cons c rest =>
      rw [List.all_cons, Bool.and_eq_true] at hall
      obtain ⟨hc, hrest⟩ := hall
      show linkGo (fuel + 1) (c :: rest) = _
      unfold linkGo
      by_cases hcb : c = '['
      · rw [if_pos hcb]
        have htw : rest.takeWhile (fun x => x ≠ ']') = rest :=
          List.takeWhile_eq_self_iff.mpr (List.all_eq_true.mp hrest)
        dsimp only
        rw [htw, List.drop_length]
        rw [if_neg (by simp)]
        rw [ih _ hrest]
      · rw [if_neg hcb, ih _ hrest]

theorem headingStripGo_id :
    ∀ (fuel : Nat) (b : Bool) (s : Str),
      noLineStart (fun c => c == '#') b s = true →
      headingStripGo fuel b s = s := by
  intro fuel
  induction fuel with
  | zero => intro b s _; rfl
  | succ fuel ih =>
    intro b s hns
    cases s with
    | nil => rfl
    | cons c rest =>
      unfold noLineStart at hns
      rw [Bool.and_eq_true, Bool.not_eq_true', Bool.and_eq_false_iff] at hns
      obtain ⟨hc, hrest⟩ := hns
      show headingStripGo (fuel + 1) b (c :: rest) = _
      unfold headingStripGo
      rw [if_neg (fun hand => by
        rcases hc with hc | hc
        · rw [hand.1] at hc; simp at hc
        · rw [hand.2] at hc; simp at hc)]
      rw [ih _ _ hrest]

theorem ulGo_id :
    ∀ (fuel : Nat) (b : Bool) (s : Str),
      noLineStart (fun c => c == '-' || c == '*') b s = true →
      ulGo fuel b s = s := by
  intro fuel
  induction fuel with
  | zero => intro b s _; rfl
  | succ fuel ih =>
    intro b s hns
    cases s with
    | nil => rfl
    | cons c rest =>
      unfold noLineStart at hns
      rw [Bool.and_eq_true, Bool.not_eq_true', Bool.and_eq_false_iff] at hns
      obtain ⟨hc, hrest⟩ := hns
      show ulGo (fuel + 1) b (c :: rest) = _
      unfold ulGo
      rw [if_neg (fun hand => by
        rcases hc with hc | hc
        · rw [hand.1] at hc; simp at hc
        · rcases hand.2 with h2 | h2 <;> (rw [h2] at hc; simp at hc))]
      rw [ih _ _ hrest]

theorem olGo_id :
    ∀ (fuel : Nat) (b : Bool) (s : Str),
      noLineStart Char.isDigit b s = true →
      olGo fuel b s = s := by
  intro fuel
  induction fuel with
  | zero => intro b s _; rfl
  | succ fuel ih =>
    intro b s hns
    cases s with
    | nil => rfl
    | cons c rest =>
      unfold noLineStart at hns
      rw [Bool.and_eq_true, Bool.not_eq_true', Bool.and_eq_false_iff] at hns
      obtain ⟨hc, hrest⟩ := hns
      show olGo (fuel + 1) b (c :: rest) = _
      unfold olGo
      rw [if_neg (fun hand => by
        rcases hc with hc | hc
        · rw [hand.1] at hc; simp at hc
        · rw [hand.2] at hc; simp at hc)]
      rw [ih _ _ hrest]

/-- Claim C8 (amended): a second application of the formatter leaves its
output unchanged — in particular no bold/italic/code span is re-wrapped —
whenever the first pass consumed all delimiters, i.e. whenever
`formatContent t` contains no `*`, `_`, `` ` `` or `]` and none of its
lines begins with `#`, a list marker or a digit.  (Without that proviso
the property fails: see the counterexample, where a pair of leftover
underscores makes the second pass wrap a styled span again.) -/
theorem C8_format_idempotent (t s : Str) (hs : formatContent t = s)
    (h1 : s.all (fun c => c ≠ '*') = true) (h2 : s.all (fun c => c ≠ '_') = true)
    (h3 : s.all (fun c => c ≠ '`') = true) (h4 : s.all (fun c => c ≠ ']') = true)
    (h5 : noLineStart (fun c => c == '#') true s = true)
    (h6 : noLineStart (fun c => c == '-' || c == '*') true s = true)
    (h7 : noLineStart Char.isDigit true s = true) :
    formatContent (formatContent t) = formatContent t := by
  rw [hs]
  show formatContent s = s
  unfold formatContent codeBlockPass headingStripPass boldStarPass boldUnderPass
    italStarPass italUnderPass inlineCodePass linkPass ulPass olPass
  rw [codeBlockGo_id _ _ h3, headingStripGo_id _ _ _ h5,
      pairTwoGo_id '*' _ _ _ _ h1, pairTwoGo_id '_' _ _ _ _ h2,
      pairOneGo_id '*' _ _ _ _ h1, pairOneGo_id '_' _ _ _ _ h2,
      pairOneGo_id '`' _ _ _ _ h3, linkGo_id _ _ h4,
      ulGo_id _ _ _ h6, olGo_id _ _ _ h7]

theorem C8_witness :
    formatContent (formatContent "**b** `c`".data) = formatContent "**b** `c`".data :=
  C8_format_idempotent "**b** `c`".data (formatContent "**b** `c`".data) rfl
    (by decide) (by decide) (by decide) (by decide) (by decide) (by decide) (by decide)

/-- Counterexample to claim C8 as stated: on `__ a _b_` the first pass
leaves two unpaired underscores around the cyan italic span; the second
pass pairs them across the escape sequences and wraps the whole region in
a second italic span (two nested cyan starts), altering the italic spans. -/
theorem C8_counterexample :
    formatContent (formatContent "__ a _b_".data) ≠ formatContent "__ a _b_".data ∧
    formatContent "__ a _b_".data =
      '_' :: cyan ++ " a ".data ++ reset ++ "b_".data ∧
    formatContent (formatContent "__ a _b_".data) =
      cyan ++ cyan ++ " a ".data ++ reset ++ "b".data ++ reset := by
  refine ⟨by decide, by decide, by decide⟩

/-! ### Section-level structure of the parser -/

theorem length_dropWhile_le (l : List Str) (q : Str → Bool) :
    (l.dropWhile q).length ≤ l.length := by
  induction l with
  | nil => simp
  | cons a t ih =>
    by_cases hq : q a
    · rw [List.dropWhile_cons_of_pos hq]
      exact le_trans ih (by simp)
    · rw [List.dropWhile_cons_of_neg hq]

theorem h3GroupsGo_fuel :
    ∀ (fuel fuel' : Nat) (ls : List Str), ls.length ≤ fuel → ls.length ≤ fuel' →
      h3GroupsGo fuel ls = h3GroupsGo fuel' ls := by
  intro fuel
  induction fuel with
  | zero =>
    intro fuel' ls h1 _
    have : ls = [] := by
      cases ls with
      | nil => rfl
      | cons a t => simp at h1
    subst this
    cases fuel' <;> rfl
  | succ fuel ih =>
    intro fuel' ls h1 h2
    cases ls with
    | nil => cases fuel' <;> rfl
    | cons l ls =>
      cases fuel' with
      | zero => simp at h2
      | succ fuel' =>
        show (l, _) :: _ = (l, _) :: _
        congr 1
        have hd := length_dropWhile_le ls (fun x => (matchH3 x).isNone)
        exact ih fuel' _ (by simp at h1; omega) (by simp at h2; omega)

theorem h3Groups_cons (l : Str) (ls : List Str) :
    h3Groups (l :: ls) =
      (l, ls.takeWhile (fun x => (matchH3 x).isNone)) ::
        h3Groups (ls.dropWhile (fun x => (matchH3 x).isNone)) := by
  show h3GroupsGo (ls.length + 1) (l :: ls) = _
  show (l, _) :: h3GroupsGo ls.length (ls.dropWhile fun x => (matchH3 x).isNone) = _
  congr 1
  exact h3GroupsGo_fuel _ _ _ (length_dropWhile_le ls _) le_rfl

theorem mem_dropWhile_of_neg {p : Char → Bool} {c : Char} :
    ∀ {s : Str}, c ∈ s → p c = false → c ∈ s.dropWhile p := by
  intro s
  induction s with
  | nil => intro h _; simp at h
  | cons a t ih =>
    intro hc hp
    by_cases hq : p a
    · rw [List.dropWhile_cons_of_pos hq]
      rcases List.mem_cons.mp hc with rfl | hc
      · rw [hq] at hp; simp at hp
      · exact ih hc hp
    · rw [List.dropWhile_cons_of_neg hq]
      exact hc

theorem jsTrim_ne_nil_of_mem {s : Str} {c : Char} (hc : c ∈ s)
    (hw : jsWS c = false) : jsTrim s ≠ [] := by
  unfold jsTrim dropTrailingWS
  have h1 : c ∈ s.dropWhile jsWS := mem_dropWhile_of_neg hc hw
  have h2 : c ∈ (s.dropWhile jsWS).reverse.dropWhile jsWS :=
    mem_dropWhile_of_neg (List.mem_reverse.mpr h1) hw
  exact List.ne_nil_of_mem (List.mem_reverse.mpr h2)

theorem mem_joinE_head {c : Char} {x : Char} {l : Str} :
    ∀ (g : List Str), x ∈ l → x ∈ joinE c (l :: g) := by
  intro g hx
  cases g with
  | nil => exact hx
  | cons y r => exact List.mem_append_left _ hx

theorem matchH3_start {l x : Str} (h : matchH3 l = some x) :
    ∃ t, l = '#' :: '#' :: '#' :: t := by
  unfold matchH3 at h
  split at h
  · next t => exact ⟨t, rfl⟩
  · simp at h

theorem pushSub_h3 {l : Str} {x : Str} (h : matchH3 l = some x) (g : List Str) :
    pushSub (l :: g) =
      [{ subtitle := (matchH3 l).map jsTrim,
         content := jsTrim (joinE '\n' (l :: g)) }] := by
  obtain ⟨t, rfl⟩ := matchH3_start h
  have hmem : '#' ∈ joinE '\n' (('#' :: '#' :: '#' :: t) :: g) :=
    mem_joinE_head g (List.mem_cons_self _ _)
  have hne := jsTrim_ne_nil_of_mem hmem (by decide)
  unfold pushSub
  rw [if_neg hne]

theorem sectionLoop_spec :
    ∀ (body cur : List Str) (subs : List SubPage),
      (∀ l ∈ body, isH2Next l = false) →
      sectionLoop cur subs body = (subs ++ specSubs cur body, []) := by
  intro body
  induction body with
  | nil =>
    intro cur subs _
    show (subs ++ pushSub cur, []) = _
    simp [specSubs, h3Groups, h3GroupsGo]
  | cons l ls ih =>
    intro cur subs hb
    have hl := hb l (List.mem_cons_self l ls)
    have hls := fun x hx => hb x (List.mem_cons_of_mem l hx)
    show sectionLoop cur subs (l :: ls) = _
    unfold sectionLoop
    rw [if_neg (by simp [hl])]
    cases hm : matchH3 l with
    | some cap =>
      dsimp only
      rw [ih [l] (subs ++ pushSub cur) hls]
      have hpre : (l :: ls).takeWhile (fun x => (matchH3 x).isNone) = [] := by
        simp [List.takeWhile_cons, hm]
      have hrest : (l :: ls).dropWhile (fun x => (matchH3 x).isNone) = l :: ls := by
        simp [List.dropWhile_cons, hm]
      unfold specSubs
      rw [hpre, hrest, List.append_nil, h3Groups_cons, List.map_cons,
          List.singleton_append, pushSub_h3 hm]
      simp [List.append_assoc]
    | none =>
      dsimp only
      rw [ih (cur ++ [l]) subs hls]
      have hpre : (l :: ls).takeWhile (fun x => (matchH3 x).isNone) =
          l :: ls.takeWhile (fun x => (matchH3 x).isNone) := by
        simp [List.takeWhile_cons, hm]
      have hrest : (l :: ls).dropWhile (fun x => (matchH3 x).isNone) =
          ls.dropWhile (fun x => (matchH3 x).isNone) := by
        simp [List.dropWhile_cons, hm]
      unfold specSubs
      rw [hpre, hrest, ← List.append_cons]

theorem pagesOfSection_ne_nil (title : Str) (subs : List SubPage) :
    pagesOfSection title subs ≠ [] := by
  unfold pagesOfSection
  split_ifs with h
  · simp
  · simp [List.map_eq_nil_iff, h]

/-- Claim C3 (amended): every second-level-heading section the scan
processes yields at least one page; and a section whose span contains no
`###` heading and whose body trims to nothing yields exactly the single
placeholder page with empty content and no subtitle. -/
theorem C3_empty_section_page (title : Str) (body : List Str)
    (hb : ∀ l ∈ body, isH2Next l = false) :
    pagesOfSection title (sectionLoop [] [] body).1 ≠ [] ∧
    ((∀ l ∈ body, matchH3 l = none) → jsTrim (joinE '\n' body) = [] →
      pagesOfSection title (sectionLoop [] [] body).1 =
        [{ type := .page, title := title, subtitle := none, content := [] }]) := by
  refine ⟨pagesOfSection_ne_nil _ _, fun h3 htr => ?_⟩
  rw [sectionLoop_spec body [] [] hb]
  show pagesOfSection title ([] ++ specSubs [] body) = _
  rw [List.nil_append]
  unfold specSubs
  have ht : body.takeWhile (fun l => (matchH3 l).isNone) = body :=
    List.takeWhile_eq_self_iff.mpr (fun x hx => by simp [h3 x hx])
  have hd : body.dropWhile (fun l => (matchH3 l).isNone) = [] :=
    List.dropWhile_eq_nil_iff.mpr (fun x hx => by simp [h3 x hx])
  rw [ht, hd, List.nil_append]
  rw [show h3Groups [] = [] from rfl, List.map_nil, List.append_nil]
  unfold pushSub
  rw [if_pos htr]
  rfl

theorem C3_witness :
    pagesOfSection "A".data (sectionLoop [] [] [" ".data]).1 =
      [{ type := .page, title := "A".data, subtitle := none, content := [] }] ∧
    pagesOfSection "A".data (sectionLoop [] [] [" ".data]).1 ≠ [] := by
  have h := C3_empty_section_page "A".data [" ".data] (by decide)
  exact ⟨h.2 (by decide) (by decide), h.1⟩

theorem dropWhile_head_not {p : Str → Bool} :
    ∀ {l : List Str} {x : Str} {xs : List Str},
      l.dropWhile p = x :: xs → p x = false := by
  intro l
  induction l with
  | nil => intro x xs h; simp at h
  | cons a t ih =>
    intro x xs h
    by_cases hq : p a
    · rw [List.dropWhile_cons_of_pos hq] at h
      exact ih h
    · rw [List.dropWhile_cons_of_neg hq] at h
      injection h with h1 _
      subst h1
      simpa using hq

theorem h3GroupsGo_heads :
    ∀ (fuel : Nat) (rs : List Str),
      (∀ x xs, rs = x :: xs → (matchH3 x).isNone = false) →
      ∀ g ∈ h3GroupsGo fuel rs, (matchH3 g.1).isNone = false := by
  intro fuel
  induction fuel with
  | zero => intro rs _ g hg; simp [h3GroupsGo] at hg
  | succ fuel ih =>
    intro rs hhead g hg
    cases rs with
    | nil => simp [h3GroupsGo] at hg
    | cons l ls =>
      simp only [h3GroupsGo, List.mem_cons] at hg
      rcases hg with rfl | hg
      · exact hhead l ls rfl
      · exact ih _ (fun x xs hx => dropWhile_head_not hx) g hg

theorem pushSub_pages (title : Str) (pre : List Str)
    (hpre : ∀ x ∈ pre, (matchH3 x).isNone = true) :
    (pushSub pre).map (pageOfSub title) =
      (if jsTrim (joinE '\n' pre) = [] then []
       else [{ type := .page, title := title, subtitle := none,
               content := jsTrim (joinE '\n' pre) }]) := by
  unfold pushSub
  split_ifs with h
  · rfl
  · cases pre with
    | nil => exact absurd rfl h
    | cons f rest =>
      have hf : matchH3 f = none :=
        Option.isNone_iff_eq_none.mp (hpre f (List.mem_cons_self f rest))
      simp [pageOfSub, hf]

theorem pageOfSub_group (title : Str) (g : Str × List Str)
    (hg : (matchH3 g.1).isNone = false) :
    pageOfSub title
      { subtitle := (matchH3 g.1).map jsTrim,
        content := jsTrim (joinE '\n' (g.1 :: g.2)) } = specGroupPage title g := by
  cases hmx : matchH3 g.1 with
  | none => rw [hmx] at hg; simp at hg
  | some cap => simp [pageOfSub, specGroupPage, hmx]

/-- Claim C2 (amended): a section whose span contains at least one `###`
heading yields, in order, a subtitle-less page for the non-empty trimmed
pre-heading block (none when it trims to nothing) and then exactly one
page per `###` heading — regardless of whether the heading's body is
empty, since the accumulated block always contains the heading line
itself — each carrying the section's title and the heading's trimmed
captured text as subtitle; its content is the block with the heading line
stripped and re-trimmed, except when the captured heading text trims to
empty (a whitespace-only caption, as on a line of `###` followed by two
spaces): there the empty subtitle is falsy in the source's truthiness
test, the strip is skipped, and the block is kept whole. -/
theorem C2_section_with_h3 (title : Str) (body : List Str)
    (hb : ∀ l ∈ body, isH2Next l = false)
    (hh : ∃ l ∈ body, (matchH3 l).isSome = true) :
    pagesOfSection title (sectionLoop [] [] body).1 = specSectionPages title body := by
  rw [sectionLoop_spec body [] [] hb]
  show pagesOfSection title ([] ++ specSubs [] body) = _
  rw [List.nil_append]
  obtain ⟨l0, hl0, hsome⟩ := hh
  obtain ⟨r0, rs0, hre⟩ :
      ∃ x xs, body.dropWhile (fun l => (matchH3 l).isNone) = x :: xs := by
    cases hc : body.dropWhile (fun l => (matchH3 l).isNone) with
    | nil =>
      have := List.dropWhile_eq_nil_iff.mp hc l0 hl0
      cases hmx : matchH3 l0 with
      | none => rw [hmx] at hsome; simp at hsome
      | some cap => rw [hmx] at this; simp at this
    | cons x xs => exact ⟨x, xs, rfl⟩
  unfold specSubs
  have hsubs_ne :
      pushSub ([] ++ body.takeWhile (fun l => (matchH3 l).isNone)) ++
        (h3Groups (body.dropWhile (fun l => (matchH3 l).isNone))).map
          (fun g => ({ subtitle := (matchH3 g.1).map jsTrim,
                       content := jsTrim (joinE '\n' (g.1 :: g.2)) } : SubPage)) ≠ [] := by
    rw [hre, h3Groups_cons, List.map_cons]
    simp
  unfold pagesOfSection
  rw [if_neg hsubs_ne, List.map_append, List.nil_append]
  unfold specSectionPages
  rw [pushSub_pages title _ (fun x hx => by
    have h2 := List.mem_takeWhile_imp hx
    exact h2)]
  congr 1
  rw [List.map_map]
  refine List.map_congr_left ?_
  intro g hg
  have hhead : (matchH3 g.1).isNone = false := by
    refine h3GroupsGo_heads _ _ ?_ g hg
    intro x xs hx
    rw [hre] at hx
    injection hx with h1 _
    subst h1
    exact dropWhile_head_not hre
  exact pageOfSub_group title g hhead

theorem C2_witness :
    pagesOfSection "A".data (sectionLoop [] [] ["x".data, "### B".data, "b".data]).1 =
      specSectionPages "A".data ["x".data, "### B".data, "b".data] :=
  C2_section_with_h3 "A".data ["x".data, "### B".data, "b".data]
    (by decide) (by decide)

example :
    parseMarkdown "# T\n## A\n###  \nbody".data =
      [{ type := .title, title := "T".data, subtitle := none, content := [] },
       { type := .page, title := "A".data, subtitle := some [],
         content := "###  \nbody".data }] := by decide
